import Mathlib

/-!
Verification of MoPyRegtest's `RegressionTest` class
(`mopyregtest/modelicaregressiontest.py`).

The Python source is shallowly embedded below:
* file contents and tokens are `List Char` (Python `str`);
* the comparison data loaded by `pandas.read_csv` is a `DataFrame`,
  an association list of column name to column values (rationals);
* the filesystem and the process working directory are a `World` record;
* `numpy.testing.assert_almost_equal` on arrays checks the shapes and
  then element-wise `|actual - desired| < 1.5 * 10 ^ (-decimal)`;
* exceptions become explicit outcome types.
-/

namespace MoPyRegtest

/-! ## Python string primitives -/

/-- Python whitespace characters recognised by `str.strip()` (ASCII part). -/
def isPyWS (c : Char) : Bool :=
  c = ' ' || c = '\t' || c = '\n' || c = '\r' || c = Char.ofNat 11 || c = Char.ofNat 12

/-- Python `s.strip()` restricted to ASCII whitespace. -/
def pyStripWS (s : String) : String :=
  (((s.toList.dropWhile isPyWS).reverse.dropWhile isPyWS).reverse).asString

/-- Python `s.lower()` restricted to ASCII letters. -/
def pyLower (s : String) : String :=
  (s.toList.map Char.toLower).asString

/-- Python `s.lstrip('(')`: drop every leading opening parenthesis. -/
def pyLstripParen (s : String) : String :=
  (s.toList.dropWhile (fun c => c = '(')).asString

/-- Python `s.rstrip(')')`: drop every trailing closing parenthesis. -/
def pyRstripParen (s : String) : String :=
  ((s.toList.reverse.dropWhile (fun c => c = ')')).reverse).asString

/-- Helper for `pySplitComma`: accumulate the current field (reversed). -/
def splitCommaAux : List Char → List Char → List (List Char)
  | acc, [] => [acc.reverse]
  | acc, c :: rest =>
    if c = ',' then acc.reverse :: splitCommaAux [] rest
    else splitCommaAux (c :: acc) rest

/-- Python `s.split(',')`. -/
def pySplitComma (s : String) : List String :=
  (splitCommaAux [] s.toList).map List.asString

/-! ## Python `str.replace`, as used by `_replace_in_file`

`contents.replace(k, v)` replaces the non-overlapping occurrences of `k`
left to right, re-scanning the whole current string.  The recursion is
implemented with a fuel argument (the length of the string) so that the
function is structurally recursive and computes by `rfl`/`decide`. -/

/-- Fueled left-to-right non-overlapping replacement of `k` by `v`. -/
def replaceAuxF (k v : List Char) : Nat → List Char → List Char
  | _, [] => []
  | 0, s => s
  | fuel + 1, c :: rest =>
    if k.isPrefixOf (c :: rest) && !k.isEmpty then
      v ++ replaceAuxF k v fuel ((c :: rest).drop k.length)
    else
      c :: replaceAuxF k v fuel rest

/-- Python `contents.replace(k, v)`.  An empty pattern inserts `v` at every
position, as CPython does. -/
def pyReplace (contents k v : List Char) : List Char :=
  if k.isEmpty then v ++ (contents.map (fun c => c :: v)).flatten
  else replaceAuxF k v contents.length contents

/-- The replacement loop of `RegressionTest._replace_in_file`
(lines 80-81 of the source): the pairs of `repl_dict` are applied in
iteration order to the whole file contents. -/
def replace_in_file (contents : List Char) (repl_dict : List (List Char × List Char)) :
    List Char :=
  repl_dict.foldl (fun c kv => pyReplace c kv.1 kv.2) contents

/-! ## Result comparison (`compare_result`, lines 140-153) -/

/-- A loaded CSV table: association list of column name to column data. -/
def DataFrame : Type := List (String × List ℚ)

/-- Column lookup, `df[c]` on a `pandas` data frame. -/
def getCol (df : DataFrame) (c : String) : Option (List ℚ) :=
  (df.find? (fun kv => kv.1 == c)).map (fun kv => kv.2)

/-- The column names of a data frame. -/
def colNames (df : DataFrame) : List String :=
  df.map (fun kv => kv.1)

/-- `set(ref_data.columns).intersection(set(result_data.columns))`
(line 144); only membership in the result is ever used. -/
def commonCols (ref_data result_data : DataFrame) : List String :=
  (colNames ref_data).filter (fun c => (colNames result_data).contains c)

/-- Absolute value on the rationals, written so that it reduces in the
kernel (it equals `|x|`, see `ratAbs_eq_abs`). -/
def ratAbs (x : ℚ) : ℚ := if x < 0 then -x else x

/-- Binary maximum on the rationals, written so that it reduces in the
kernel (it equals `max`, see `ratMax_eq_max`). -/
def ratMax (a b : ℚ) : ℚ := if a ≤ b then b else a

/-- The comparison threshold of `np.testing.assert_almost_equal`:
the check is `|actual - desired| < 1.5 * 10 ^ (-decimal)`. -/
def threshold (precision : ℤ) : ℚ :=
  3 / 2 * (10 : ℚ) ^ (-precision)

/-- `np.testing.assert_almost_equal(actual, desired, precision)` on
one-dimensional arrays: shapes must agree and every pair of entries must
differ by less than `threshold precision`. -/
def almostEqual (actual desired : List ℚ) (precision : ℤ) : Bool :=
  actual.length == desired.length &&
    (actual.zip desired).all (fun x => decide (ratAbs (x.1 - x.2) < threshold precision))

/-- The largest absolute element-wise difference of two columns. -/
def maxAbsDiff (actual desired : List ℚ) : ℚ :=
  ((actual.zip desired).map (fun x => ratAbs (x.1 - x.2))).foldr ratMax 0

/-- Outcome of the comparison loop of `compare_result`. -/
inductive CompareOutcome : Type
  /-- The loop finished without an exception. -/
  | ok : CompareOutcome
  /-- `result_data[c]` or `ref_data[c]` raised a `KeyError`. -/
  | keyError (col : String) : CompareOutcome
  /-- `np.testing.assert_almost_equal` raised an `AssertionError`
  while comparing column `col`. -/
  | assertionError (col : String) : CompareOutcome
deriving DecidableEq

/-- The `for c in validated_cols` loop of `compare_result`
(lines 149-151): look both columns up and assert element-wise closeness. -/
def checkCols (ref_data result_data : DataFrame) (precision : ℤ) :
    List String → CompareOutcome
  | [] => .ok
  | c :: cs =>
    match getCol result_data c, getCol ref_data c with
    | some a, some d =>
      if almostEqual a d precision then checkCols ref_data result_data precision cs
      else .assertionError c
    | _, _ => .keyError c

/-- The columns actually compared (lines 144-147): a non-empty explicit
`validated_cols` takes precedence, otherwise the header intersection. -/
def validatedColsOf (ref_data result_data : DataFrame) (validated_cols : List String) :
    List String :=
  if validated_cols.isEmpty then commonCols ref_data result_data else validated_cols

/-- The comparison stage of `RegressionTest.compare_result` (lines 140-153),
taking the two data frames already loaded from CSV. -/
def compare_result (ref_data result_data : DataFrame) (precision : ℤ)
    (validated_cols : List String) : CompareOutcome :=
  checkCols ref_data result_data precision
    (validatedColsOf ref_data result_data validated_cols)

/-! ## Metadata extraction (`_run_model`, lines 229-233) -/

/-- Outcome of parsing the import log. -/
inductive ExtractOutcome : Type
  /-- The five simulation parameters, as strings, in source order. -/
  | fields (startTime stopTime tolerance numIntervals interval : String) :
      ExtractOutcome
  /-- The tuple unpacking raised a `ValueError` (field count not five). -/
  | valueError : ExtractOutcome
  /-- `omc_messages[-1]` raised an `IndexError` (empty log). -/
  | indexError : ExtractOutcome
deriving DecidableEq

/-- The comma-separated fields of a log line after the paren stripping done
at line 233 of the source. -/
def fieldsOf (line : String) : List String :=
  pySplitComma (pyRstripParen (pyLstripParen line))

/-- Metadata extraction at line 233 of the source:
`omc_messages[-1].lstrip('(').rstrip(')').split(',')` unpacked into
exactly five variables. -/
def extract_metadata (omc_messages : List String) : ExtractOutcome :=
  match omc_messages.getLast? with
  | none => .indexError
  | some line =>
    match fieldsOf line with
    | [a, b, c, d, e] => .fields a b c d e
    | _ => .valueError

/-- Modelled from the spec: the claim's reading of metadata extraction,
which takes the last NON-EMPTY (non-blank) line of the log and strips one
leading parenthesis and one trailing parenthesis before splitting. -/
def extract_metadata_claimed (omc_messages : List String) : ExtractOutcome :=
  match (omc_messages.filter (fun l => !(l.toList.all isPyWS))).getLast? with
  | none => .indexError
  | some line =>
    let stripped :=
      (if line.toList.head? = some '(' then (line.toList.drop 1).asString else line)
    let stripped2 :=
      (if stripped.toList.getLast? = some ')' then
        stripped.toList.dropLast.asString else stripped)
    match pySplitComma stripped2 with
    | [a, b, c, d, e] => .fields a b c d e
    | _ => .valueError

/-! ## Interactive confirmation (`_ask_confirmation`, lines 54-72) -/

/-- Parsing of one typed answer: `answer_as_str.strip().lower()`
compared with "yes" and "no". -/
def parseAnswer (s : String) : Option Bool :=
  let t := pyLower (pyStripWS s)
  if t = "yes" then some true
  else if t = "no" then some false
  else none

/-- The `for q in range(0, max_asks)` loop: read answers starting at
index `q` with the given remaining number of attempts. -/
def askLoop (answers : Nat → String) : Nat → Nat → Option Bool
  | _, 0 => none
  | q, fuel + 1 =>
    match parseAnswer (answers q) with
    | some b => some b
    | none => askLoop answers (q + 1) fuel

/-- Outcome of `_ask_confirmation`. -/
inductive AskOutcome : Type
  /-- The loop obtained a valid yes/no answer. -/
  | answered (b : Bool) : AskOutcome
  /-- No valid answer within the budget: `ValueError` raised. -/
  | valueError : AskOutcome
deriving DecidableEq

/-- `RegressionTest._ask_confirmation(question, max_asks)`, with the
sequence of typed inputs modelled as a stream. -/
def ask_confirmation (answers : Nat → String) (max_asks : Nat) : AskOutcome :=
  match askLoop answers 0 max_asks with
  | some b => .answered b
  | none => .valueError

/-- `_ask_confirmation` with its default budget `max_asks=5`. -/
def ask_confirmation_default (answers : Nat → String) : AskOutcome :=
  ask_confirmation answers 5

/-! ## Workspace state (`__init__`, `_import_and_simulate`, `cleanup`) -/

/-- The mutable attributes of a `RegressionTest` instance that the
workspace operations use. -/
structure RT : Type where
  /-- `self.result_folder_path`. -/
  result_folder : String
  /-- `self.initial_cwd`, recorded at construction (line 45). -/
  initial_cwd : String
  /-- `self.result_folder_created` (line 52, initially `False`). -/
  result_folder_created : Bool
deriving DecidableEq

/-- The ambient filesystem and process state. -/
structure World : Type where
  /-- The set of existing directories. -/
  dirs : List String
  /-- The process current working directory. -/
  cwd : String
deriving DecidableEq

/-- `RegressionTest.__init__`: the flag starts out `False`. -/
def mkRT (result_folder initial_cwd : String) : RT :=
  { result_folder := result_folder, initial_cwd := initial_cwd,
    result_folder_created := false }

/-- The tool list built in `__init__` (lines 47-50): a caller-supplied
tool is wrapped in a singleton list without validation; `None` triggers a
search of the fixed candidate list over the PATH. -/
def supported_tools : List String := ["omc"]

/-- Lines 47-50 of `__init__`: `onPath` models `shutil.which(tl) != None`. -/
def initTools (tool : Option String) (onPath : String → Bool) : List String :=
  match tool with
  | some t => [t]
  | none => supported_tools.filter onPath

/-- `shutil.rmtree(path)`: remove the directory recursively, or fail with
`FileNotFoundError` if it does not exist. -/
def rmtree (w : World) (path : String) : Option World :=
  if path ∈ w.dirs then some { w with dirs := w.dirs.filter (fun d => d != path) }
  else none

/-- `RegressionTest._import_and_simulate` (lines 90-112): create the
result folder if absent (setting the flag), change into it, run the
model, and change back.  `runModelOk` tells whether `_run_model` returns
normally; when it raises, the Python code never reaches the restoring
`chdir` and the exception propagates (the returned `Bool` is `false`). -/
def import_and_simulate (rt : RT) (w : World) (runModelOk : Bool) :
    RT × World × Bool :=
  let created := rt.result_folder ∈ w.dirs
  let rt1 := if created then rt else { rt with result_folder_created := true }
  let w1 := if created then w else { w with dirs := rt.result_folder :: w.dirs }
  let w2 := { w1 with cwd := rt.result_folder }
  if runModelOk then (rt1, { w2 with cwd := rt.initial_cwd }, true)
  else (rt1, w2, false)

/-- Outcome of `cleanup`. -/
inductive CleanupResult : Type
  /-- `cleanup` returned normally with the resulting world. -/
  | ok (w : World) : CleanupResult
  /-- `_ask_confirmation` raised `ValueError`. -/
  | valueError (w : World) : CleanupResult
  /-- `shutil.rmtree` raised `FileNotFoundError`. -/
  | fsError (w : World) : CleanupResult
deriving DecidableEq

/-- `RegressionTest.cleanup` (lines 155-186): only folders created by
this run are ever deleted; the flag is never reset. -/
def cleanup (rt : RT) (w : World) (ask_confirm : Bool)
    (answers : Nat → String) : CleanupResult :=
  if rt.result_folder_created then
    if ask_confirm then
      match ask_confirmation_default answers with
      | .valueError => .valueError w
      | .answered true =>
        match rmtree w rt.result_folder with
        | some w2 => .ok w2
        | none => .fsError w
      | .answered false => .ok w
    else
      match rmtree w rt.result_folder with
      | some w2 => .ok w2
      | none => .fsError w
  else .ok w

/-! ## Theorems -/

/-- C3: for every instance whose result folder pre-existed (the
created-by-this-run flag is `false`), `cleanup` — with or without
confirmation — deletes nothing and leaves the world untouched; and the
flag is set to `true` only when the run itself creates the absent
folder. -/
theorem C3_cleanup_preexisting_noop (rt : RT) (w : World) (ask_confirm : Bool)
    (answers : Nat → String) (runModelOk : Bool)
    (h : rt.result_folder_created = false) :
    cleanup rt w ask_confirm answers = .ok w
    ∧ (rt.result_folder ∈ w.dirs →
        ((import_and_simulate rt w runModelOk).1).result_folder_created
          = rt.result_folder_created)
    ∧ (((import_and_simulate rt w runModelOk).1).result_folder_created = true →
        rt.result_folder_created = true ∨ rt.result_folder ∉ w.dirs) := by
  refine ⟨by simp [cleanup, h], ?_, ?_⟩
  · intro hmem
    cases runModelOk <;> simp [import_and_simulate, hmem]
  · intro hset
    by_cases hmem : rt.result_folder ∈ w.dirs
    · left
      cases runModelOk <;> simpa [import_and_simulate, hmem] using hset
    · right
      exact hmem

/-- Witness for C3 at a concrete instance whose folder pre-exists. -/
theorem C3_witness :
    cleanup ⟨"res", "home", false⟩ ⟨["res"], "home"⟩ true (fun _ => "")
      = .ok ⟨["res"], "home"⟩ :=
  (C3_cleanup_preexisting_noop ⟨"res", "home", false⟩ ⟨["res"], "home"⟩ true
    (fun _ => "") true rfl).1

/-- C8 as amended: during `_import_and_simulate` the process working
directory is changed to the result folder; it is restored to the
directory recorded at construction when `_run_model` returns normally,
but when `_run_model` raises, the restoring `chdir` is never reached and
the working directory stays at the result folder. -/
theorem C8_cwd_restore (rt : RT) (w : World) :
    ((import_and_simulate rt w true).2.1).cwd = rt.initial_cwd
    ∧ ((import_and_simulate rt w false).2.1).cwd = rt.result_folder := by
  by_cases hmem : rt.result_folder ∈ w.dirs <;>
    exact ⟨by simp [import_and_simulate, hmem], by simp [import_and_simulate, hmem]⟩

/-- Counterexample to C8 as stated: when a phase in between fails, the
working directory is NOT restored to the one recorded at construction
(`"home"`); it remains the result folder (`"res"`). -/
theorem C8_counterexample :
    ((import_and_simulate ⟨"res", "home", false⟩ ⟨["res"], "home"⟩ false).2.1).cwd
        = "res"
    ∧ (RT.mk "res" "home" false).initial_cwd = "home"
    ∧ ("res" : String) ≠ "home" := by
  refine ⟨by decide, rfl, by decide⟩

/-- C9 as amended: every entry of the tool list obtained from the
default PATH search (`tool=None`) belongs to the fixed supported set;
a caller-supplied tool name is wrapped unvalidated into a singleton
list. -/
theorem C9_tools_membership (onPath : String → Bool) (t : String)
    (h : t ∈ initTools none onPath) :
    t ∈ supported_tools ∧ ∀ s, initTools (some s) onPath = [s] := by
  refine ⟨?_, fun s => rfl⟩
  exact (List.mem_filter.mp h).1

/-- Witness for C9 on the search branch with everything on the PATH. -/
theorem C9_witness :
    "omc" ∈ supported_tools
      ∧ ∀ s, initTools (some s) (fun _ => true) = [s] :=
  C9_tools_membership (fun _ => true) "omc" (by decide)

/-- Counterexample to C9 as stated: constructing with `tool="dymola"`
yields a tool list whose entry is not in the supported set. -/
theorem C9_counterexample :
    initTools (some "dymola") (fun _ => true) = ["dymola"]
    ∧ "dymola" ∉ supported_tools :=
  ⟨rfl, by decide⟩

/-- C10: `cleanup` is not idempotent after a successful deletion — the
created-by-this-run flag stays `true`, so a second `cleanup` call with
confirmation suppressed attempts `rmtree` on the already-removed folder
and raises a filesystem error. -/
theorem C10_cleanup_not_idempotent (rt : RT) (w : World) (answers : Nat → String)
    (hflag : rt.result_folder_created = true) (hdir : rt.result_folder ∈ w.dirs) :
    ∃ w2, cleanup rt w false answers = .ok w2
      ∧ rt.result_folder ∉ w2.dirs
      ∧ cleanup rt w2 false answers = .fsError w2 := by
  refine ⟨{ w with dirs := w.dirs.filter (fun d => d != rt.result_folder) }, ?_, ?_, ?_⟩
  · simp [cleanup, hflag, rmtree, hdir]
  · simp [List.mem_filter]
  · simp [cleanup, hflag, rmtree, List.mem_filter]

/-- Witness for C10 at a concrete owned folder. -/
theorem C10_witness :
    ∃ w2, cleanup ⟨"res", "home", true⟩ ⟨["res"], "home"⟩ false (fun _ => "") = .ok w2
      ∧ "res" ∉ w2.dirs
      ∧ cleanup ⟨"res", "home", true⟩ w2 false (fun _ => "") = .fsError w2 :=
  C10_cleanup_not_idempotent ⟨"res", "home", true⟩ ⟨["res"], "home"⟩ (fun _ => "")
    rfl (by decide)

/-- The ask loop succeeds with `b` as soon as one attempt inside the
budget parses to `b` and all earlier attempts do not parse. -/
theorem askLoop_some (answers : Nat → String) (b : Bool) :
    ∀ q start fuel, q < fuel →
      (∀ r, r < q → parseAnswer (answers (start + r)) = none) →
      parseAnswer (answers (start + q)) = some b →
      askLoop answers start fuel = some b := by
  intro q
  induction q with
  | zero =>
    intro start fuel hq hbefore hq0
    match fuel, hq with
    | fuel + 1, _ =>
      have h : parseAnswer (answers start) = some b := by simpa using hq0
      simp [askLoop, h]
  | succ q ih =>
    intro start fuel hq hbefore hqq
    match fuel, hq with
    | fuel + 1, hq =>
      have h0 : parseAnswer (answers start) = none := by
        simpa using hbefore 0 (Nat.succ_pos q)
      have hstep : askLoop answers start (fuel + 1) = askLoop answers (start + 1) fuel := by
        simp [askLoop, h0]
      rw [hstep]
      refine ih (start + 1) fuel (Nat.lt_of_succ_lt_succ hq) ?_ ?_
      · intro r hr
        have harith : start + 1 + r = start + (r + 1) := by omega
        rw [harith]
        exact hbefore (r + 1) (Nat.succ_lt_succ hr)
      · have harith : start + 1 + q = start + (q + 1) := by omega
        rw [harith]
        exact hqq

/-- The ask loop fails when no attempt inside the budget parses. -/
theorem askLoop_none (answers : Nat → String) :
    ∀ fuel start, (∀ r, r < fuel → parseAnswer (answers (start + r)) = none) →
      askLoop answers start fuel = none := by
  intro fuel
  induction fuel with
  | zero => intro start _; rfl
  | succ fuel ih =>
    intro start hall
    have h0 : parseAnswer (answers start) = none := by
      simpa using hall 0 (Nat.succ_pos fuel)
    have hstep : askLoop answers start (fuel + 1) = askLoop answers (start + 1) fuel := by
      simp [askLoop, h0]
    rw [hstep]
    refine ih (start + 1) ?_
    intro r hr
    have harith : start + 1 + r = start + (r + 1) := by omega
    rw [harith]
    exact hall (r + 1) (Nat.succ_lt_succ hr)

/-- C7: the interactive confirmation reads a yes/no answer with a fixed
retry budget of 5 attempts; it returns `true` on "yes" and `false` on
"no" (case-insensitively, with surrounding whitespace stripped), and if
no valid answer is given within the budget it raises a `ValueError`. -/
theorem C7_ask_confirmation (answers : Nat → String) (q : Nat)
    (hq : q < 5) (hbefore : ∀ r, r < q → parseAnswer (answers r) = none) :
    (pyLower (pyStripWS (answers q)) = "yes" →
      ask_confirmation_default answers = .answered true)
    ∧ (pyLower (pyStripWS (answers q)) = "no" →
      ask_confirmation_default answers = .answered false)
    ∧ ((∀ r, r < 5 → parseAnswer (answers r) = none) →
      ask_confirmation_default answers = .valueError) := by
  have hbefore0 : ∀ r, r < q → parseAnswer (answers (0 + r)) = none := by
    intro r hr
    simpa using hbefore r hr
  refine ⟨?_, ?_, ?_⟩
  · intro hyes
    have hp : parseAnswer (answers (0 + q)) = some true := by
      simp only [Nat.zero_add]
      simp [parseAnswer, hyes]
    have := askLoop_some answers true q 0 5 hq hbefore0 hp
    simp [ask_confirmation_default, ask_confirmation, this]
  · intro hno
    have hp : parseAnswer (answers (0 + q)) = some false := by
      simp only [Nat.zero_add]
      simp [parseAnswer, hno]
    have := askLoop_some answers false q 0 5 hq hbefore0 hp
    simp [ask_confirmation_default, ask_confirmation, this]
  · intro hall
    have : askLoop answers 0 5 = none := by
      refine askLoop_none answers 5 0 ?_
      intro r hr
      simpa using hall r hr
    simp [ask_confirmation_default, ask_confirmation, this]

/-- Witness for C7: a whitespace-padded, mixed-case first answer is
accepted immediately. -/
theorem C7_witness :
    ask_confirmation_default (fun _ => " Yes ") = .answered true :=
  (C7_ask_confirmation (fun _ => " Yes ") 0 (by decide)
    (fun r hr => absurd hr (Nat.not_lt_zero r))).1 (by decide)

/-- C4 as amended: metadata extraction takes the LAST line of the import
log (blank or not), strips ALL leading opening and ALL trailing closing
parentheses, splits on commas; exactly five fields are returned as
strings in source order, and any other field count raises a deterministic
unpacking `ValueError`. -/
theorem C4_extract_last_line (omc_messages : List String) (line : String)
    (h : omc_messages.getLast? = some line) :
    (∀ a b c d e, fieldsOf line = [a, b, c, d, e] →
      extract_metadata omc_messages = .fields a b c d e)
    ∧ ((fieldsOf line).length ≠ 5 →
      extract_metadata omc_messages = .valueError) := by
  constructor
  · intro a b c d e hf
    simp [extract_metadata, h, hf]
  · intro hlen
    rcases hL : fieldsOf line with - | ⟨a, - | ⟨b, - | ⟨c, - | ⟨d, - | ⟨e, - | ⟨f, t⟩⟩⟩⟩⟩⟩
    · simp [extract_metadata, h, hL]
    · simp [extract_metadata, h, hL]
    · simp [extract_metadata, h, hL]
    · simp [extract_metadata, h, hL]
    · simp [extract_metadata, h, hL]
    · exact absurd (by simp [hL]) hlen
    · simp [extract_metadata, h, hL]

/-- Witness for C4 on a well-formed import log. -/
theorem C4_witness :
    extract_metadata ["(0.0,1.0,1e-06,500,0.002)"]
      = .fields "0.0" "1.0" "1e-06" "500" "0.002" :=
  (C4_extract_last_line ["(0.0,1.0,1e-06,500,0.002)"] "(0.0,1.0,1e-06,500,0.002)"
    rfl).1 "0.0" "1.0" "1e-06" "500" "0.002" (by decide)

/-- Counterexample to C4 as stated: the code does NOT take the last
non-empty line — a trailing blank line makes it fail where the claim
predicts the five fields of the preceding line; and it strips ALL
leading parentheses, not one. `extract_metadata_claimed` is the claim's
reading. -/
theorem C4_counterexample :
    extract_metadata ["(0,1,2,3,4)", "\n"] = .valueError
    ∧ extract_metadata_claimed ["(0,1,2,3,4)", "\n"] = .fields "0" "1" "2" "3" "4"
    ∧ extract_metadata ["((0,1,2,3,4)"] = .fields "0" "1" "2" "3" "4"
    ∧ extract_metadata_claimed ["((0,1,2,3,4)"] = .fields "(0" "1" "2" "3" "4" := by
  refine ⟨by decide, by decide, by decide, by decide⟩

/-- The computable absolute value agrees with the lattice one. -/
theorem ratAbs_eq_abs (x : ℚ) : ratAbs x = |x| := by
  unfold ratAbs
  rcases lt_or_le x 0 with h | h
  · rw [if_pos h, abs_of_neg h]
  · rw [if_neg (not_lt.mpr h), abs_of_nonneg h]

/-- The computable maximum agrees with the lattice one. -/
theorem ratMax_eq_max (a b : ℚ) : ratMax a b = max a b := by
  unfold ratMax
  by_cases h : a ≤ b
  · rw [if_pos h, max_eq_right h]
  · rw [if_neg h, max_eq_left (le_of_not_le h)]

/-- Every element of a list of rationals is at most its running maximum. -/
theorem le_foldr_max (l : List ℚ) : ∀ x ∈ l, x ≤ l.foldr ratMax 0 := by
  induction l with
  | nil => intro x hx; cases hx
  | cons a l ih =>
    intro x hx
    rw [List.foldr_cons, ratMax_eq_max]
    rcases List.mem_cons.mp hx with rfl | hx
    · exact le_max_left _ _
    · exact le_trans (ih x hx) (le_max_right _ _)

/-- A positive bound below the running maximum is attained by a member. -/
theorem exists_ge_of_le_foldr_max (l : List ℚ) (t : ℚ) (ht : 0 < t)
    (h : t ≤ l.foldr ratMax 0) : ∃ x ∈ l, t ≤ x := by
  induction l with
  | nil =>
    exfalso
    have : (0 : ℚ) < 0 := lt_of_lt_of_le ht h
    exact lt_irrefl 0 this
  | cons a l ih =>
    rw [List.foldr_cons, ratMax_eq_max] at h
    rcases le_max_iff.mp h with ha | hl
    · exact ⟨a, List.mem_cons_self a l, ha⟩
    · obtain ⟨x, hx, hxt⟩ := ih hl
      exact ⟨x, List.mem_cons_of_mem a hx, hxt⟩

/-- The numpy comparison threshold is positive. -/
theorem threshold_pos (p : ℤ) : 0 < threshold p := by
  have h10 : (0 : ℚ) < (10 : ℚ) ^ (-p) := zpow_pos (by norm_num) _
  unfold threshold
  linarith

/-- Unfolding of the numpy element-wise closeness check. -/
theorem almostEqual_iff (a d : List ℚ) (p : ℤ) :
    almostEqual a d p = true ↔
      a.length = d.length ∧ ∀ x ∈ a.zip d, ratAbs (x.1 - x.2) < threshold p := by
  simp [almostEqual, List.all_eq_true]

/-- Columns whose largest deviation is below the threshold compare equal. -/
theorem almostEqual_of_maxAbsDiff_lt (a d : List ℚ) (p : ℤ)
    (hlen : a.length = d.length) (h : maxAbsDiff a d < threshold p) :
    almostEqual a d p = true := by
  rw [almostEqual_iff]
  refine ⟨hlen, ?_⟩
  intro x hx
  have hmem : ratAbs (x.1 - x.2) ∈ (a.zip d).map (fun y => ratAbs (y.1 - y.2)) :=
    List.mem_map_of_mem _ hx
  have hle : ratAbs (x.1 - x.2) ≤ maxAbsDiff a d := le_foldr_max _ _ hmem
  exact lt_of_le_of_lt hle h

/-- Columns whose largest deviation reaches the threshold fail the check. -/
theorem almostEqual_eq_false_of_le_maxAbsDiff (a d : List ℚ) (p : ℤ)
    (h : threshold p ≤ maxAbsDiff a d) : almostEqual a d p = false := by
  cases heq : almostEqual a d p with
  | false => rfl
  | true =>
    exfalso
    obtain ⟨-, hall⟩ := (almostEqual_iff a d p).mp heq
    unfold maxAbsDiff at h
    obtain ⟨y, hy, hty⟩ := exists_ge_of_le_foldr_max _ _ (threshold_pos p) h
    obtain ⟨x, hx, rfl⟩ := List.mem_map.mp hy
    exact absurd (hall x hx) (not_lt.mpr hty)

/-- The comparison loop returns `ok` when every selected column passes. -/
theorem checkCols_ok (ref_data result_data : DataFrame) (p : ℤ) :
    ∀ L, (∀ c ∈ L, ∃ a dd, getCol result_data c = some a ∧
        getCol ref_data c = some dd ∧ almostEqual a dd p = true) →
      checkCols ref_data result_data p L = .ok := by
  intro L
  induction L with
  | nil => intro _; rfl
  | cons c cs ih =>
    intro hall
    obtain ⟨a, dd, ha, hd, hok⟩ := hall c (List.mem_cons_self c cs)
    have ihcs := ih (fun c2 hc2 => hall c2 (List.mem_cons_of_mem c hc2))
    simp [checkCols, ha, hd, hok, ihcs]

/-- The comparison loop names the failing column when every other
selected column passes. -/
theorem checkCols_fail (ref_data result_data : DataFrame) (p : ℤ) (X : String)
    (a dd : List ℚ) (ha : getCol result_data X = some a)
    (hd : getCol ref_data X = some dd) (hfail : almostEqual a dd p = false) :
    ∀ L, X ∈ L →
      (∀ c ∈ L, c ≠ X → ∃ a2 d2, getCol result_data c = some a2 ∧
        getCol ref_data c = some d2 ∧ almostEqual a2 d2 p = true) →
      checkCols ref_data result_data p L = .assertionError X := by
  intro L
  induction L with
  | nil => intro h; cases h
  | cons c cs ih =>
    intro hmem hothers
    by_cases hcX : c = X
    · subst hcX
      simp [checkCols, ha, hd, hfail]
    · obtain ⟨a2, d2, ha2, hd2, hok2⟩ := hothers c (List.mem_cons_self c cs) hcX
      have hmem2 : X ∈ cs := by
        rcases List.mem_cons.mp hmem with h | h
        · exact absurd h.symm hcX
        · exact h
      have ihcs := ih hmem2 (fun c2 hc2 hne => hothers c2 (List.mem_cons_of_mem c hc2) hne)
      simp [checkCols, ha2, hd2, hok2, ihcs]

/-- C1 as amended: the effective scalar threshold of `compare_result` is
the numpy one, `1.5 * 10 ^ (-p)`.  If the datasets differ in a selected
column `X` by exactly `eps` (with every other selected column passing),
the comparison fails with an assertion error naming `X` when
`1.5 * 10 ^ (-p) ≤ eps`, and succeeds when `eps < 1.5 * 10 ^ (-p)`. -/
theorem C1_compare_threshold (ref_data result_data : DataFrame) (p : ℤ)
    (X : String) (eps : ℚ) (validated_cols : List String) (a dd : List ℚ)
    (ha : getCol result_data X = some a) (hd : getCol ref_data X = some dd)
    (hlen : a.length = dd.length) (hdiff : maxAbsDiff a dd = eps)
    (hmem : X ∈ validatedColsOf ref_data result_data validated_cols)
    (hothers : ∀ c ∈ validatedColsOf ref_data result_data validated_cols, c ≠ X →
      ∃ a2 d2, getCol result_data c = some a2 ∧ getCol ref_data c = some d2 ∧
        almostEqual a2 d2 p = true) :
    (threshold p ≤ eps →
      compare_result ref_data result_data p validated_cols = .assertionError X)
    ∧ (eps < threshold p →
      compare_result ref_data result_data p validated_cols = .ok) := by
  constructor
  · intro hge
    have hfail : almostEqual a dd p = false :=
      almostEqual_eq_false_of_le_maxAbsDiff a dd p (by rw [hdiff]; exact hge)
    exact checkCols_fail ref_data result_data p X a dd ha hd hfail _ hmem hothers
  · intro hlt
    have hok : almostEqual a dd p = true :=
      almostEqual_of_maxAbsDiff_lt a dd p hlen (by rw [hdiff]; exact hlt)
    refine checkCols_ok ref_data result_data p _ ?_
    intro c hc
    by_cases hcX : c = X
    · subst hcX
      exact ⟨a, dd, ha, hd, hok⟩
    · exact hothers c hc hcX

/-- Witness for C1: deviation 2 at precision 0 (threshold 1.5) fails
naming the column. -/
theorem C1_witness :
    compare_result [("x", [(0 : ℚ)])] [("x", [(2 : ℚ)])] 0 ["x"]
      = .assertionError "x" :=
  (C1_compare_threshold [("x", [(0 : ℚ)])] [("x", [(2 : ℚ)])] 0 "x" 2 ["x"]
    [2] [0] (by decide) (by decide) rfl
    (by norm_num [maxAbsDiff, List.zip, ratAbs, ratMax]) (by decide)
    (fun c hc hne => absurd (List.mem_singleton.mp (show c ∈ ["x"] from hc)) hne)).1
    (by norm_num [threshold])

/-- Counterexample to C1 as stated: with precision 0 the datasets differ
in column "x" by exactly `eps = 1` and `10 ^ (-0) = 1 ≤ eps`, so the
claim predicts an assertion error naming "x"; the code succeeds because
numpy's actual threshold is `1.5`. -/
theorem C1_counterexample :
    compare_result [("x", [(0 : ℚ)])] [("x", [(1 : ℚ)])] 0 [] = .ok
    ∧ maxAbsDiff [(1 : ℚ)] [(0 : ℚ)] = 1
    ∧ ((10 : ℚ) ^ (-(0 : ℤ)) ≤ 1) := by
  refine ⟨?_, ?_, by norm_num⟩
  · norm_num [compare_result, validatedColsOf, commonCols, colNames, checkCols,
      getCol, almostEqual, ratAbs, threshold, List.zip]
  · norm_num [maxAbsDiff, List.zip, ratAbs, ratMax]

/-- The comparison loop only inspects the columns it is given. -/
theorem checkCols_congr (ref1 res1 ref2 res2 : DataFrame) (p : ℤ) :
    ∀ L, (∀ c ∈ L, getCol ref2 c = getCol ref1 c) →
      (∀ c ∈ L, getCol res2 c = getCol res1 c) →
      checkCols ref2 res2 p L = checkCols ref1 res1 p L := by
  intro L
  induction L with
  | nil => intro _ _; rfl
  | cons c cs ih =>
    intro hr hs
    have hrc := hr c (List.mem_cons_self c cs)
    have hsc := hs c (List.mem_cons_self c cs)
    have ihcs := ih (fun c2 h2 => hr c2 (List.mem_cons_of_mem c h2))
      (fun c2 h2 => hs c2 (List.mem_cons_of_mem c h2))
    cases hg1 : getCol res1 c with
    | none => simp [checkCols, hrc, hsc, hg1]
    | some a =>
      cases hg2 : getCol ref1 c with
      | none => simp [checkCols, hrc, hsc, hg1, hg2]
      | some dd =>
        by_cases hae : almostEqual a dd p = true
        · simp [checkCols, hrc, hsc, hg1, hg2, hae, ihcs]
        · simp [checkCols, hrc, hsc, hg1, hg2, hae]

/-- C2: a non-empty explicit column list takes precedence over the header
intersection and only the listed columns are inspected — two pairs of
data frames agreeing on the listed columns compare identically however
the other columns differ; with no explicit list and an empty header
intersection the comparison trivially succeeds. -/
theorem C2_column_selection (ref1 res1 ref2 res2 : DataFrame) (p : ℤ)
    (validated_cols : List String) (hne : validated_cols ≠ [])
    (hr : ∀ c ∈ validated_cols, getCol ref2 c = getCol ref1 c)
    (hs : ∀ c ∈ validated_cols, getCol res2 c = getCol res1 c) :
    compare_result ref2 res2 p validated_cols
      = compare_result ref1 res1 p validated_cols
    ∧ (commonCols ref1 res1 = [] → compare_result ref1 res1 p [] = .ok) := by
  constructor
  · have hval2 : validatedColsOf ref2 res2 validated_cols = validated_cols := by
      cases validated_cols with
      | nil => exact absurd rfl hne
      | cons c cs => rfl
    have hval1 : validatedColsOf ref1 res1 validated_cols = validated_cols := by
      cases validated_cols with
      | nil => exact absurd rfl hne
      | cons c cs => rfl
    show checkCols ref2 res2 p (validatedColsOf ref2 res2 validated_cols)
      = checkCols ref1 res1 p (validatedColsOf ref1 res1 validated_cols)
    rw [hval1, hval2]
    exact checkCols_congr ref1 res1 ref2 res2 p validated_cols hr hs
  · intro hcc
    show checkCols ref1 res1 p (validatedColsOf ref1 res1 []) = .ok
    simp [validatedColsOf, hcc, checkCols]

/-- Witness for C2: the explicit list `["a"]` hides an arbitrary
difference in column "b". -/
theorem C2_witness :
    compare_result [("a", [(0 : ℚ)]), ("b", [5])] [("a", [(0 : ℚ)]), ("b", [9])] 7 ["a"]
      = compare_result [("a", [(0 : ℚ)])] [("a", [(0 : ℚ)])] 7 ["a"]
    ∧ (commonCols [("a", [(0 : ℚ)])] [("a", [(0 : ℚ)])] = [] →
        compare_result [("a", [(0 : ℚ)])] [("a", [(0 : ℚ)])] 7 [] = .ok) :=
  C2_column_selection [("a", [(0 : ℚ)])] [("a", [(0 : ℚ)])]
    [("a", [(0 : ℚ)]), ("b", [5])] [("a", [(0 : ℚ)]), ("b", [9])] 7 ["a"]
    (by decide) (by decide) (by decide)

/-! ## String replacement lemmas (for C5 and C6) -/

theorem isEmpty_false_of_ne {k : List Char} (hk : k ≠ []) : k.isEmpty = false := by
  cases k with
  | nil => exact absurd rfl hk
  | cons a l => rfl

theorem one_le_length_of_ne {k : List Char} (hk : k ≠ []) : 1 ≤ k.length := by
  cases k with
  | nil => exact absurd rfl hk
  | cons a l => exact Nat.succ_le_succ (Nat.zero_le _)

theorem isPrefixOf_true_iff (k : List Char) : ∀ s, k.isPrefixOf s = true ↔ k <+: s := by
  induction k with
  | nil =>
    intro s
    constructor
    · intro _
      exact ⟨s, rfl⟩
    · intro _
      cases s <;> rfl
  | cons a k ih =>
    intro s
    cases s with
    | nil =>
      constructor
      · intro h
        simp [List.isPrefixOf] at h
      · intro h
        obtain ⟨t, ht⟩ := h
        simp at ht
    | cons b s =>
      constructor
      · intro h
        have h2 : (a == b && k.isPrefixOf s) = true := h
        obtain ⟨hab, hks⟩ := Bool.and_eq_true_iff.mp h2
        have hab2 : a = b := beq_iff_eq.mp hab
        subst hab2
        obtain ⟨t, ht⟩ := (ih s).mp hks
        exact ⟨t, by rw [List.cons_append, ht]⟩
      · intro h
        obtain ⟨t, ht⟩ := h
        rw [List.cons_append] at ht
        injection ht with h1 h2
        subst h1
        show (a == a && k.isPrefixOf s) = true
        rw [beq_self_eq_true, Bool.true_and]
        exact (ih s).mpr ⟨t, h2⟩

theorem inf_nil {p : List Char} (h : p <:+: ([] : List Char)) : p = [] := by
  obtain ⟨s, t, hst⟩ := h
  have h1 := (List.append_eq_nil.mp hst).1
  exact (List.append_eq_nil.mp h1).2

theorem mem_of_inf {p m : List Char} (h : p <:+: m) {a : Char} (ha : a ∈ p) :
    a ∈ m := by
  obtain ⟨s, t, rfl⟩ := h
  simp [List.mem_append, ha]

theorem mem_of_suf {p m : List Char} (h : p <:+ m) {a : Char} (ha : a ∈ p) :
    a ∈ m := by
  obtain ⟨s, rfl⟩ := h
  simp [List.mem_append, ha]

theorem inf_cons_cases {p : List Char} {c : Char} {L : List Char}
    (h : p <:+: c :: L) : p <+: c :: L ∨ p <:+: L := by
  obtain ⟨s, t, hst⟩ := h
  cases s with
  | nil =>
    left
    exact ⟨t, by simpa using hst⟩
  | cons d s2 =>
    right
    rw [List.cons_append, List.cons_append] at hst
    injection hst with h1 h2
    exact ⟨s2, t, h2⟩

theorem inf_of_inf_cons {p : List Char} {c : Char} {L : List Char}
    (h : p <:+: L) : p <:+: c :: L := by
  obtain ⟨s, t, rfl⟩ := h
  exact ⟨c :: s, t, rfl⟩

theorem inf_append_left_ext (l : List Char) {p m : List Char} (h : p <:+: m) :
    p <:+: l ++ m := by
  obtain ⟨s, t, rfl⟩ := h
  exact ⟨l ++ s, t, by simp [List.append_assoc]⟩

theorem inf_of_suf_inf {p l m : List Char} (h : p <:+: l) (h2 : l <:+ m) :
    p <:+: m := by
  obtain ⟨s1, t1, rfl⟩ := h
  obtain ⟨s2, rfl⟩ := h2
  exact ⟨s2 ++ s1, t1, by simp [List.append_assoc]⟩

theorem inf_of_pref {p m : List Char} (h : p <+: m) : p <:+: m := by
  obtain ⟨t, ht⟩ := h
  exact ⟨[], t, by simpa using ht⟩

theorem pref_append_cases {p x y : List Char} (h : p <+: x ++ y) :
    p <+: x ∨ ∃ q, p = x ++ q ∧ q <+: y := by
  induction x generalizing p with
  | nil =>
    right
    exact ⟨p, rfl, h⟩
  | cons c x2 ih =>
    cases p with
    | nil =>
      left
      exact ⟨c :: x2, rfl⟩
    | cons d p2 =>
      obtain ⟨t, ht⟩ := h
      rw [List.cons_append, List.cons_append] at ht
      injection ht with h1 h2
      subst h1
      rcases ih ⟨t, h2⟩ with hx | ⟨q, hq1, hq2⟩
      · left
        obtain ⟨r, hr⟩ := hx
        exact ⟨r, by rw [List.cons_append, hr]⟩
      · right
        exact ⟨q, by rw [hq1, List.cons_append], hq2⟩

theorem inf_append_cases {k x y : List Char} (h : k <:+: x ++ y) :
    k <:+: x ∨ k <:+: y ∨
      ∃ a b, a ++ b = k ∧ a ≠ [] ∧ b ≠ [] ∧ a <:+ x ∧ b <+: y := by
  induction x generalizing k with
  | nil =>
    right
    left
    simpa using h
  | cons c x2 ih =>
    rcases inf_cons_cases (by simpa using h) with hpre | hinf
    · cases k with
      | nil =>
        left
        exact ⟨[], c :: x2, by simp⟩
      | cons d k2 =>
        obtain ⟨t, ht⟩ := hpre
        rw [List.cons_append] at ht
        injection ht with h1 h2
        subst h1
        rcases pref_append_cases ⟨t, h2⟩ with hx | ⟨q, hq1, hq2⟩
        · left
          obtain ⟨r, hr⟩ := hx
          exact ⟨[], r, by simp [hr]⟩
        · cases q with
          | nil =>
            left
            rw [List.append_nil] at hq1
            subst hq1
            exact ⟨[], [], by simp⟩
          | cons e q2 =>
            right
            right
            refine ⟨d :: x2, e :: q2, ?_, by simp, by simp, ⟨[], rfl⟩, hq2⟩
            rw [hq1, List.cons_append]
    · rcases ih hinf with hx | hy | ⟨a, b, hab, ha, hb, hax, hby⟩
      · left
        exact inf_of_inf_cons hx
      · right
        left
        exact hy
      · right
        right
        refine ⟨a, b, hab, ha, hb, ?_, hby⟩
        obtain ⟨s, rfl⟩ := hax
        exact ⟨c :: s, rfl⟩

/-! Equations for `pyReplace` with a non-empty pattern. -/

theorem replaceAuxF_congr (k v : List Char) :
    ∀ f1, ∀ f2 s, s.length ≤ f1 → s.length ≤ f2 →
      replaceAuxF k v f1 s = replaceAuxF k v f2 s := by
  intro f1
  induction f1 with
  | zero =>
    intro f2 s h1 h2
    have hs : s = [] := List.length_eq_zero.mp (Nat.le_zero.mp h1)
    subst hs
    cases f2 <;> rfl
  | succ f1 ih =>
    intro f2 s h1 h2
    cases s with
    | nil => cases f2 <;> rfl
    | cons c rest =>
      match f2, h2 with
      | f2 + 1, h2 =>
        show (if k.isPrefixOf (c :: rest) && !k.isEmpty then
            v ++ replaceAuxF k v f1 ((c :: rest).drop k.length)
          else c :: replaceAuxF k v f1 rest)
          = (if k.isPrefixOf (c :: rest) && !k.isEmpty then
            v ++ replaceAuxF k v f2 ((c :: rest).drop k.length)
          else c :: replaceAuxF k v f2 rest)
        by_cases hcond : (k.isPrefixOf (c :: rest) && !k.isEmpty) = true
        · rw [if_pos hcond, if_pos hcond]
          have hk : k.isEmpty = false := by
            have := (Bool.and_eq_true_iff.mp hcond).2
            simpa using this
          have hk1 : 1 ≤ k.length := by
            cases k with
            | nil => simp [List.isEmpty] at hk
            | cons a l => exact Nat.succ_le_succ (Nat.zero_le _)
          have hdl : ((c :: rest).drop k.length).length ≤ rest.length := by
            rw [List.length_drop]
            simp [List.length_cons]
            omega
          have h1r : rest.length ≤ f1 := Nat.le_of_succ_le_succ h1
          have h2r : rest.length ≤ f2 := Nat.le_of_succ_le_succ h2
          rw [ih _ _ (le_trans hdl h1r) (le_trans hdl h2r)]
        · rw [if_neg hcond, if_neg hcond]
          rw [ih _ _ (Nat.le_of_succ_le_succ h1) (Nat.le_of_succ_le_succ h2)]

theorem pyReplace_ne_eq (k v s : List Char) (hk : k ≠ []) :
    pyReplace s k v = replaceAuxF k v s.length s := by
  unfold pyReplace
  rw [isEmpty_false_of_ne hk]
  rfl

theorem pyReplace_nil (k v : List Char) (hk : k ≠ []) : pyReplace [] k v = [] := by
  rw [pyReplace_ne_eq k v [] hk]
  rfl

theorem pyReplace_pos (k v : List Char) (c : Char) (rest : List Char)
    (hk : k ≠ []) (hm : k <+: c :: rest) :
    pyReplace (c :: rest) k v = v ++ pyReplace ((c :: rest).drop k.length) k v := by
  rw [pyReplace_ne_eq k v (c :: rest) hk, pyReplace_ne_eq k v _ hk]
  have hcond : (k.isPrefixOf (c :: rest) && !k.isEmpty) = true := by
    rw [(isPrefixOf_true_iff k (c :: rest)).mpr hm, isEmpty_false_of_ne hk]
    rfl
  show (if k.isPrefixOf (c :: rest) && !k.isEmpty then
      v ++ replaceAuxF k v rest.length ((c :: rest).drop k.length)
    else c :: replaceAuxF k v rest.length rest)
    = v ++ replaceAuxF k v ((c :: rest).drop k.length).length ((c :: rest).drop k.length)
  rw [if_pos hcond]
  have hk1 : 1 ≤ k.length := one_le_length_of_ne hk
  have hdl : ((c :: rest).drop k.length).length ≤ rest.length := by
    rw [List.length_drop]
    simp [List.length_cons]
    omega
  rw [replaceAuxF_congr k v rest.length _ _ hdl le_rfl]

theorem pyReplace_neg (k v : List Char) (c : Char) (rest : List Char)
    (hk : k ≠ []) (hm : ¬ k <+: c :: rest) :
    pyReplace (c :: rest) k v = c :: pyReplace rest k v := by
  rw [pyReplace_ne_eq k v (c :: rest) hk, pyReplace_ne_eq k v rest hk]
  have hcond : (k.isPrefixOf (c :: rest) && !k.isEmpty) = false := by
    have : k.isPrefixOf (c :: rest) = false := by
      cases hp : k.isPrefixOf (c :: rest) with
      | false => rfl
      | true => exact absurd ((isPrefixOf_true_iff k (c :: rest)).mp hp) hm
    rw [this]
    rfl
  show (if k.isPrefixOf (c :: rest) && !k.isEmpty then
      v ++ replaceAuxF k v rest.length ((c :: rest).drop k.length)
    else c :: replaceAuxF k v rest.length rest)
    = c :: replaceAuxF k v rest.length rest
  rw [if_neg (by rw [hcond]; exact Bool.false_ne_true)]

/-! Core lemmas about one replacement pass. -/

theorem replace_pref_orig (k v t : List Char) (hk : k ≠ []) (hv : v ≠ [])
    (hvt : ∀ c ∈ v, c ∉ t) :
    ∀ n s p, s.length ≤ n → p ≠ [] → (∀ a ∈ p, a ∈ t) →
      p <+: pyReplace s k v → p <+: s := by
  intro n
  induction n with
  | zero =>
    intro s p hs hp hpt hpre
    have hsnil : s = [] := List.length_eq_zero.mp (Nat.le_zero.mp hs)
    subst hsnil
    rw [pyReplace_nil k v hk] at hpre
    obtain ⟨q, hq⟩ := hpre
    exact absurd (List.append_eq_nil.mp hq).1 hp
  | succ n ih =>
    intro s p hs hp hpt hpre
    cases s with
    | nil =>
      rw [pyReplace_nil k v hk] at hpre
      obtain ⟨q, hq⟩ := hpre
      exact absurd (List.append_eq_nil.mp hq).1 hp
    | cons c rest =>
      by_cases hm : k <+: c :: rest
      · rw [pyReplace_pos k v c rest hk hm] at hpre
        exfalso
        cases p with
        | nil => exact hp rfl
        | cons d p2 =>
          cases v with
          | nil => exact hv rfl
          | cons e v2 =>
            obtain ⟨q, hq⟩ := hpre
            rw [List.cons_append, List.cons_append] at hq
            injection hq with h1 h2
            subst h1
            exact hvt d (List.mem_cons_self _ _) (hpt d (List.mem_cons_self _ _))
      · rw [pyReplace_neg k v c rest hk hm] at hpre
        cases p with
        | nil => exact absurd rfl hp
        | cons d p2 =>
          obtain ⟨q, hq⟩ := hpre
          rw [List.cons_append] at hq
          injection hq with h1 h2
          subst h1
          by_cases hp2 : p2 = []
          · subst hp2
            exact ⟨rest, rfl⟩
          · have hrec : p2 <+: rest := by
              refine ih rest p2 (Nat.le_of_succ_le_succ hs) hp2 ?_ ⟨q, h2⟩
              intro a ha
              exact hpt a (List.mem_cons_of_mem _ ha)
            obtain ⟨r, hr⟩ := hrec
            exact ⟨r, by rw [List.cons_append, hr]⟩

theorem replace_no_token (k v : List Char) (hk : k ≠ []) (hv : v ≠ [])
    (hd : ∀ c ∈ v, c ∉ k) :
    ∀ n s, s.length ≤ n → ¬ k <:+: pyReplace s k v := by
  intro n
  induction n with
  | zero =>
    intro s hs hinf
    have hsnil : s = [] := List.length_eq_zero.mp (Nat.le_zero.mp hs)
    subst hsnil
    rw [pyReplace_nil k v hk] at hinf
    exact hk (inf_nil hinf)
  | succ n ih =>
    intro s hs hinf
    cases s with
    | nil =>
      rw [pyReplace_nil k v hk] at hinf
      exact hk (inf_nil hinf)
    | cons c rest =>
      by_cases hm : k <+: c :: rest
      · rw [pyReplace_pos k v c rest hk hm] at hinf
        rcases inf_append_cases hinf with h1 | h2 | ⟨a, b, hab, ha, hb, hax, hby⟩
        · cases k with
          | nil => exact hk rfl
          | cons d k2 =>
            exact hd d (mem_of_inf h1 (List.mem_cons_self d k2))
              (List.mem_cons_self d k2)
        · refine ih ((c :: rest).drop k.length) ?_ h2
          have hk1 : 1 ≤ k.length := one_le_length_of_ne hk
          rw [List.length_drop]
          simp only [List.length_cons] at hs ⊢
          omega
        · cases a with
          | nil => exact ha rfl
          | cons d a2 =>
            have hdv : d ∈ v := mem_of_suf hax (List.mem_cons_self d a2)
            have hdk : d ∈ k := by
              rw [← hab]
              exact List.mem_append.mpr (Or.inl (List.mem_cons_self d a2))
            exact hd d hdv hdk
      · rw [pyReplace_neg k v c rest hk hm] at hinf
        rcases inf_cons_cases hinf with h1 | h2
        · cases k with
          | nil => exact hk rfl
          | cons d k2 =>
            obtain ⟨t, ht⟩ := h1
            rw [List.cons_append] at ht
            injection ht with hdc ht2
            subst hdc
            by_cases hk2 : k2 = []
            · subst hk2
              exact hm ⟨rest, rfl⟩
            · have hrec : k2 <+: rest := by
                refine replace_pref_orig (d :: k2) v (d :: k2) hk hv hd n rest k2
                  (Nat.le_of_succ_le_succ hs) hk2 ?_ ⟨t, ht2⟩
                intro a ha
                exact List.mem_cons_of_mem _ ha
              obtain ⟨r, hr⟩ := hrec
              exact hm ⟨r, by rw [List.cons_append, hr]⟩
        · exact ih rest (Nat.le_of_succ_le_succ hs) h2

theorem replace_keeps_no_token (k v t : List Char) (hk : k ≠ []) (hv : v ≠ [])
    (ht : t ≠ []) (hvt : ∀ c ∈ v, c ∉ t) :
    ∀ n s, s.length ≤ n → ¬ t <:+: s → ¬ t <:+: pyReplace s k v := by
  intro n
  induction n with
  | zero =>
    intro s hs hns hinf
    have hsnil : s = [] := List.length_eq_zero.mp (Nat.le_zero.mp hs)
    subst hsnil
    rw [pyReplace_nil k v hk] at hinf
    exact ht (inf_nil hinf)
  | succ n ih =>
    intro s hs hns hinf
    cases s with
    | nil =>
      rw [pyReplace_nil k v hk] at hinf
      exact ht (inf_nil hinf)
    | cons c rest =>
      by_cases hm : k <+: c :: rest
      · rw [pyReplace_pos k v c rest hk hm] at hinf
        rcases inf_append_cases hinf with h1 | h2 | ⟨a, b, hab, ha, hb, hax, hby⟩
        · cases t with
          | nil => exact ht rfl
          | cons d t2 =>
            exact hvt d (mem_of_inf h1 (List.mem_cons_self d t2))
              (List.mem_cons_self d t2)
        · have hsuf : (c :: rest).drop k.length <:+ c :: rest :=
            ⟨(c :: rest).take k.length, List.take_append_drop _ _⟩
          refine ih ((c :: rest).drop k.length) ?_ ?_ h2
          · have hk1 : 1 ≤ k.length := one_le_length_of_ne hk
            rw [List.length_drop]
            simp only [List.length_cons] at hs ⊢
            omega
          · intro hcon
            exact hns (inf_of_suf_inf hcon hsuf)
        · cases a with
          | nil => exact ha rfl
          | cons d a2 =>
            have hdv : d ∈ v := mem_of_suf hax (List.mem_cons_self d a2)
            have hdt : d ∈ t := by
              rw [← hab]
              exact List.mem_append.mpr (Or.inl (List.mem_cons_self d a2))
            exact hvt d hdv hdt
      · rw [pyReplace_neg k v c rest hk hm] at hinf
        rcases inf_cons_cases hinf with h1 | h2
        · cases t with
          | nil => exact ht rfl
          | cons d t2 =>
            obtain ⟨q, hq⟩ := h1
            rw [List.cons_append] at hq
            injection hq with hdc hq2
            subst hdc
            by_cases ht2 : t2 = []
            · subst ht2
              exact hns ⟨[], rest, rfl⟩
            · have hrec : t2 <+: rest := by
                refine replace_pref_orig k v (d :: t2) hk hv hvt n rest t2
                  (Nat.le_of_succ_le_succ hs) ht2 ?_ ⟨q, hq2⟩
                intro a ha
                exact List.mem_cons_of_mem _ ha
              obtain ⟨r, hr⟩ := hrec
              exact hns ⟨[], r, by simp [List.cons_append, hr]⟩
        · refine ih rest (Nat.le_of_succ_le_succ hs) ?_ h2
          intro hcon
          exact hns (inf_of_inf_cons hcon)

theorem replace_skips_clean (k v : List Char) (hk : k ≠ []) :
    ∀ x B, (∀ a ∈ x, a ∉ k) → pyReplace (x ++ B) k v = x ++ pyReplace B k v := by
  intro x
  induction x with
  | nil => intro B _; rfl
  | cons c x2 ih =>
    intro B hx
    have hm : ¬ k <+: c :: (x2 ++ B) := by
      intro hpre
      cases k with
      | nil => exact hk rfl
      | cons d k2 =>
        obtain ⟨t, ht⟩ := hpre
        rw [List.cons_append] at ht
        injection ht with h1 _
        subst h1
        exact hx d (List.mem_cons_self _ _) (List.mem_cons_self _ _)
    show pyReplace (c :: (x2 ++ B)) k v = (c :: x2) ++ pyReplace B k v
    rw [pyReplace_neg k v c (x2 ++ B) hk hm,
      ih B (fun a ha => hx a (List.mem_cons_of_mem _ ha))]
    rfl

theorem replace_keeps_other_aux (k v x : List Char) (hk : k ≠ [])
    (hx : ∀ a ∈ x, a ∉ k) :
    ∀ n A B, A.length ≤ n → x <:+: pyReplace (A ++ (x ++ B)) k v := by
  intro n
  induction n with
  | zero =>
    intro A B hA
    have hAnil : A = [] := List.length_eq_zero.mp (Nat.le_zero.mp hA)
    subst hAnil
    rw [List.nil_append, replace_skips_clean k v hk x B hx]
    exact ⟨[], pyReplace B k v, rfl⟩
  | succ n ih =>
    intro A B hA
    cases A with
    | nil =>
      rw [List.nil_append, replace_skips_clean k v hk x B hx]
      exact ⟨[], pyReplace B k v, rfl⟩
    | cons c A2 =>
      rw [List.cons_append]
      by_cases hm : k <+: c :: (A2 ++ (x ++ B))
      · by_cases hkle : k.length ≤ (c :: A2).length
        · rw [pyReplace_pos k v c (A2 ++ (x ++ B)) hk hm]
          have hdrop : (c :: (A2 ++ (x ++ B))).drop k.length
              = ((c :: A2).drop k.length) ++ (x ++ B) := by
            rw [← List.cons_append, List.drop_append_eq_append_drop,
              Nat.sub_eq_zero_of_le hkle, List.drop_zero]
          rw [hdrop]
          refine inf_append_left_ext v (ih ((c :: A2).drop k.length) B ?_)
          have hk1 : 1 ≤ k.length := one_le_length_of_ne hk
          rw [List.length_drop]
          simp only [List.length_cons] at hA ⊢
          omega
        · cases x with
          | nil => exact ⟨[], pyReplace (c :: (A2 ++ ([] ++ B))) k v, rfl⟩
          | cons e x2 =>
            exfalso
            have hm2 : k <+: (c :: A2) ++ ((e :: x2) ++ B) := by
              rw [List.cons_append]
              exact hm
            rcases pref_append_cases hm2 with hka | ⟨q, hq1, hq2⟩
            · obtain ⟨r, hr⟩ := hka
              apply hkle
              rw [← hr]
              simp [List.length_append]
            · cases q with
              | nil =>
                apply hkle
                rw [hq1, List.append_nil]
              | cons f q2 =>
                obtain ⟨r, hr⟩ := hq2
                rw [List.cons_append] at hr
                injection hr with h1 _
                subst h1
                have hfk : f ∈ k := by
                  rw [hq1]
                  exact List.mem_append.mpr (Or.inr (List.mem_cons_self _ _))
                exact hx f (List.mem_cons_self _ _) hfk
      · rw [pyReplace_neg k v c (A2 ++ (x ++ B)) hk hm]
        refine inf_of_inf_cons (ih A2 B ?_)
        simp only [List.length_cons] at hA
        omega

theorem replace_keeps_other (k v x : List Char) (hk : k ≠ [])
    (hx : ∀ a ∈ x, a ∉ k) (s : List Char) (hocc : x <:+: s) :
    x <:+: pyReplace s k v := by
  obtain ⟨A, B, hAB⟩ := hocc
  subst hAB
  rw [List.append_assoc]
  exact replace_keeps_other_aux k v x hk hx A.length A B le_rfl

theorem replace_puts_value (k v : List Char) (hk : k ≠ []) :
    ∀ n s, s.length ≤ n → k <:+: s → v <:+: pyReplace s k v := by
  intro n
  induction n with
  | zero =>
    intro s hs hocc
    have hsnil : s = [] := List.length_eq_zero.mp (Nat.le_zero.mp hs)
    subst hsnil
    exact absurd (inf_nil hocc) hk
  | succ n ih =>
    intro s hs hocc
    cases s with
    | nil => exact absurd (inf_nil hocc) hk
    | cons c rest =>
      by_cases hm : k <+: c :: rest
      · rw [pyReplace_pos k v c rest hk hm]
        exact ⟨[], pyReplace ((c :: rest).drop k.length) k v, rfl⟩
      · rw [pyReplace_neg k v c rest hk hm]
        rcases inf_cons_cases hocc with h1 | h2
        · exact absurd h1 hm
        · exact inf_of_inf_cons (ih rest (Nat.le_of_succ_le_succ hs) h2)

theorem replace_in_file_keeps_absent (t : List Char) (ht : t ≠ []) :
    ∀ repls contents,
      (∀ kv ∈ repls, kv.1 ≠ [] ∧ kv.2 ≠ [] ∧ ∀ c ∈ kv.2, c ∉ t) →
      ¬ t <:+: contents → ¬ t <:+: replace_in_file contents repls := by
  intro repls
  induction repls with
  | nil =>
    intro contents _ h
    exact h
  | cons kv rest ih =>
    intro contents hall habs
    obtain ⟨hk, hv, hvt⟩ := hall kv (List.mem_cons_self _ _)
    have hstep : ¬ t <:+: pyReplace contents kv.1 kv.2 :=
      replace_keeps_no_token kv.1 kv.2 t hk hv ht hvt contents.length contents
        le_rfl habs
    exact ih (pyReplace contents kv.1 kv.2)
      (fun kv2 h2 => hall kv2 (List.mem_cons_of_mem _ h2)) hstep

theorem replace_in_file_keeps_present (x : List Char) :
    ∀ repls contents,
      (∀ kv ∈ repls, kv.1 ≠ [] ∧ ∀ a ∈ x, a ∉ kv.1) →
      x <:+: contents → x <:+: replace_in_file contents repls := by
  intro repls
  induction repls with
  | nil =>
    intro contents _ h
    exact h
  | cons kv rest ih =>
    intro contents hall hocc
    obtain ⟨hk, hxk⟩ := hall kv (List.mem_cons_self _ _)
    have hstep : x <:+: pyReplace contents kv.1 kv.2 :=
      replace_keeps_other kv.1 kv.2 x hk hxk contents hocc
    exact ih (pyReplace contents kv.1 kv.2)
      (fun kv2 h2 => hall kv2 (List.mem_cons_of_mem _ h2)) hstep

/-- C5 as amended: for a template in which every token occurs and a
substitution map covering all of them, provided the substitution is
non-interacting — all tokens and values non-empty, no token sharing a
character with another token or with any value — the output of
`_replace_in_file` contains zero occurrences of any token and at least
one occurrence of each replacement value. -/
theorem C5_templating_roundtrip (repls : List (List Char × List Char)) :
    ∀ contents,
      (∀ kv ∈ repls, kv.1 ≠ [] ∧ kv.2 ≠ []) →
      (∀ kv ∈ repls, kv.1 <:+: contents) →
      List.Pairwise (fun kv1 kv2 => ∀ c ∈ kv1.1, c ∉ kv2.1) repls →
      (∀ kv ∈ repls, ∀ kv2 ∈ repls, ∀ c ∈ kv2.2, c ∉ kv.1) →
      ∀ kv ∈ repls, ¬ kv.1 <:+: replace_in_file contents repls
        ∧ kv.2 <:+: replace_in_file contents repls := by
  induction repls with
  | nil =>
    intro contents _ _ _ _ kv hkv
    cases hkv
  | cons hd rest ih =>
    intro contents hne hocc hpair hval kv hkv
    obtain ⟨hk1, hv1⟩ := hne hd (List.mem_cons_self _ _)
    have hstep : replace_in_file contents (hd :: rest)
        = replace_in_file (pyReplace contents hd.1 hd.2) rest := rfl
    rcases List.mem_cons.mp hkv with rfl | hmem
    · constructor
      · rw [hstep]
        refine replace_in_file_keeps_absent kv.1 hk1 rest _ ?_ ?_
        · intro kv2 h2
          obtain ⟨hk2, hv2⟩ := hne kv2 (List.mem_cons_of_mem _ h2)
          exact ⟨hk2, hv2,
            fun c hc => hval kv (List.mem_cons_self _ _) kv2
              (List.mem_cons_of_mem _ h2) c hc⟩
        · exact replace_no_token kv.1 kv.2 hk1 hv1
            (fun c hc => hval kv (List.mem_cons_self _ _) kv
              (List.mem_cons_self _ _) c hc)
            contents.length contents le_rfl
      · rw [hstep]
        refine replace_in_file_keeps_present kv.2 rest _ ?_ ?_
        · intro kv2 h2
          exact ⟨(hne kv2 (List.mem_cons_of_mem _ h2)).1,
            fun a ha => hval kv2 (List.mem_cons_of_mem _ h2) kv
              (List.mem_cons_self _ _) a ha⟩
        · exact replace_puts_value kv.1 kv.2 hk1 contents.length contents le_rfl
            (hocc kv (List.mem_cons_self _ _))
    · rw [hstep]
      refine ih (pyReplace contents hd.1 hd.2)
        (fun kv2 h2 => hne kv2 (List.mem_cons_of_mem _ h2))
        ?_ (List.pairwise_cons.mp hpair).2
        (fun kv2 h2 kv3 h3 => hval kv2 (List.mem_cons_of_mem _ h2) kv3
          (List.mem_cons_of_mem _ h3))
        kv hmem
      intro kv2 h2
      have hdisj := (List.pairwise_cons.mp hpair).1 kv2 h2
      refine replace_keeps_other hd.1 hd.2 kv2.1 hk1 ?_ contents
        (hocc kv2 (List.mem_cons_of_mem _ h2))
      intro a ha hahd
      exact hdisj a hahd ha

/-- Witness for C5: one token, character-disjoint from its value. -/
theorem C5_witness :
    ¬ ['P', 'F'] <:+: replace_in_file ['P', 'F', ' ', 'x'] [(['P', 'F'], ['q'])]
    ∧ ['q'] <:+: replace_in_file ['P', 'F', ' ', 'x'] [(['P', 'F'], ['q'])] :=
  C5_templating_roundtrip [(['P', 'F'], ['q'])] ['P', 'F', ' ', 'x']
    (by decide) (by decide) (by decide) (by decide) (['P', 'F'], ['q']) (by decide)

/-- Counterexample to C5 as stated: with the map A -> B, B -> C on the
template "A" (every placeholder covered), the output "C" contains zero
occurrences of the replacement value "B" of token "A", because the later
replacement destroyed it. -/
theorem C5_counterexample :
    replace_in_file ['A'] [(['A'], ['B']), (['B'], ['C'])] = ['C']
    ∧ ¬ ['B'] <:+: replace_in_file ['A'] [(['A'], ['B']), (['B'], ['C'])] := by
  have heq : replace_in_file ['A'] [(['A'], ['B']), (['B'], ['C'])] = ['C'] := rfl
  refine ⟨heq, ?_⟩
  intro h
  have hm := mem_of_inf h (List.mem_cons_self _ _)
  rw [heq] at hm
  simp at hm

/-- C6 as amended: `_replace_in_file` applies the pairs of the mapping
in iteration order, each step replacing every occurrence of its token in
the WHOLE current text — so later replacements do re-scan (and act on)
text produced by earlier replacements. -/
theorem C6_sequential_replace :
    (∀ (contents k v : List Char) rest,
      replace_in_file contents ((k, v) :: rest)
        = replace_in_file (pyReplace contents k v) rest)
    ∧ (∀ (k v s : List Char), k ≠ [] → v ≠ [] → (∀ c ∈ v, c ∉ k) →
      ¬ k <:+: pyReplace s k v) := by
  constructor
  · intro contents k v rest
    rfl
  · intro k v s hk hv hd
    exact replace_no_token k v hk hv hd s.length s le_rfl

/-- Witness for C6 at concrete arguments. -/
theorem C6_witness :
    replace_in_file ['a'] [(['a'], ['b'])]
      = replace_in_file (pyReplace ['a'] ['a'] ['b']) []
    ∧ ¬ ['a'] <:+: pyReplace ['a', 'a'] ['a'] ['b'] :=
  ⟨C6_sequential_replace.1 ['a'] ['a'] ['b'] [],
   C6_sequential_replace.2 ['a'] ['b'] ['a', 'a'] (by decide) (by decide) (by decide)⟩

/-- Counterexample to C6 as stated: on contents "ab" with the map
a -> b, b -> c the code yields "cc": the second replacement rewrote the
"b" produced by the first, which no-re-scan semantics (which would give
"bc" or "cb") forbids. -/
theorem C6_counterexample :
    replace_in_file ['a', 'b'] [(['a'], ['b']), (['b'], ['c'])] = ['c', 'c']
    ∧ (['c', 'c'] : List Char) ≠ ['b', 'c'] :=
  ⟨rfl, by decide⟩

end MoPyRegtest
